import Mathlib

/-!
Shallow embedding of the 2D Abelian sandpile simulation in
sandpile_2D.py, together with proofs of the specified properties.

The grid is a square lattice of side n holding natural-number sand
heights, represented as a total function on pairs of indices; only the
values at indices below n are ever read.  Heights in the source are
stored as numpy int8 but stay far below the overflow bound during any
relaxation starting from a stable grid, so natural numbers model them
faithfully.  Cell coordinates handed to getNeighbors are integers,
matching the source where an index minus one may be negative.
-/

/-- Embedding of getNeighbors from sandpile_2D.py: candidate neighbors
of the cell at integer coordinates x and y in the order produced by the
source arrays, keeping only those whose both coordinates lie inside
the square lattice of side n. -/
def getNeighbors (n : ℕ) (x y : ℤ) : List (ℤ × ℤ) :=
  [(x - 1, y), (x, y - 1), (x, y + 1), (x + 1, y)].filter
    (fun p => decide (0 ≤ p.1 ∧ p.1 < (n : ℤ) ∧ 0 ≤ p.2 ∧ p.2 < (n : ℤ)))

/-- Pointwise update of a grid at one cell. -/
def update2 (g : ℕ → ℕ → ℕ) (x y v : ℕ) : ℕ → ℕ → ℕ :=
  fun i j => if i = x ∧ j = y then v else g i j

/-- One grain added at a cell, mirroring the source increments of the
form grid[x, y] += 1. -/
def deposit (g : ℕ → ℕ → ℕ) (x y : ℕ) : ℕ → ℕ → ℕ :=
  update2 g x y (g x y + 1)

/-- The neighbors of a cell with natural coordinates, converted back to
natural coordinates; this is how the engine indexes the grid with the
arrays returned by getNeighbors. -/
def nbrList (n x y : ℕ) : List (ℕ × ℕ) :=
  (getNeighbors n (x : ℤ) (y : ℤ)).map (fun p => (p.1.toNat, p.2.toNat))

/-- The per-drop mutable state of the topple engine: the sand grid, the
per-drop toppling count grid (grid_iter in the source) and the cascade
size counter cs. -/
structure DropState where
  grid : ℕ → ℕ → ℕ
  grid_iter : ℕ → ℕ → ℕ
  cs : ℕ

/-- One toppling occurrence of the wave loop body: increment cs, zero
the cell unconditionally, increment its toppling count, then add one
grain to every valid neighbor. -/
def toppleStep (n : ℕ) (s : DropState) (c : ℕ × ℕ) : DropState :=
  { grid := (nbrList n c.1 c.2).foldl (fun h p => deposit h p.1 p.2)
      (update2 s.grid c.1 c.2 0),
    grid_iter := update2 s.grid_iter c.1 c.2 (s.grid_iter c.1 c.2 + 1),
    cs := s.cs + 1 }

/-- One wave: process a fixed pre-captured batch of cells in the order
of the batch list, mutating the shared state cell by cell. -/
def processBatch (n : ℕ) (batch : List (ℕ × ℕ)) (s : DropState) : DropState :=
  batch.foldl (toppleStep n) s

/-- Embedding of the full-grid rescan np.where(grid >= 4): all cells of
height at least four, enumerated in row-major order exactly as numpy
enumerates indices of a 2D array in C order. -/
def unstableCells (n : ℕ) (g : ℕ → ℕ → ℕ) : List (ℕ × ℕ) :=
  (List.range n).flatMap
    (fun i => ((List.range n).filter (fun j => decide (4 ≤ g i j))).map (fun j => (i, j)))

/-- The relaxation while-loop of the source, with an explicit fuel
bound on the number of waves; the loop stops as soon as the rescan
finds no unstable cell. -/
def relaxFuel (n : ℕ) : ℕ → List (ℕ × ℕ) → DropState → Option DropState
  | 0, batch, s => if batch = [] then some s else none
  | fuel + 1, batch, s =>
    if batch = [] then some s
    else
      let s1 := processBatch n batch s
      relaxFuel n fuel (unstableCells n s1.grid) s1

/-- Weight of a coordinate used by the termination potential. -/
def lineWeight (n x : ℕ) : ℕ := n ^ 2 + x * (n - 1 - x)

/-- Weight of a cell: product of its two coordinate weights.  Toppling
any unstable cell strictly decreases the weighted mass of the grid. -/
def cellWeight (n : ℕ) (p : ℕ × ℕ) : ℕ := lineWeight n p.1 * lineWeight n p.2

/-- The index set of the square lattice of side n. -/
def cells (n : ℕ) : Finset (ℕ × ℕ) := Finset.range n ×ˢ Finset.range n

/-- Weighted total mass of the grid. -/
def wsum (n : ℕ) (w : ℕ × ℕ → ℕ) (g : ℕ → ℕ → ℕ) : ℕ :=
  ∑ p ∈ cells n, g p.1 p.2 * w p

/-- Total mass of the grid: sum of all cell heights. -/
def gridSum (n : ℕ) (g : ℕ → ℕ → ℕ) : ℕ := wsum n (fun _ => 1) g

/-- Termination potential of the grid. -/
def potential (n : ℕ) (g : ℕ → ℕ → ℕ) : ℕ := wsum n (cellWeight n) g

/-- One drop with an explicit wave fuel: add a grain at the picked
cell; if it becomes unstable, count it, bump its toppling count, and
run the relaxation loop starting from the one-cell batch. -/
def dropGo (n fuel : ℕ) (g gi : ℕ → ℕ → ℕ) (x y : ℕ) : Option DropState :=
  let g1 := deposit g x y
  if 4 ≤ g1 x y then
    relaxFuel n fuel [(x, y)] ⟨g1, update2 gi x y (gi x y + 1), 1⟩
  else some ⟨g1, gi, 0⟩

/-- One drop of the source main loop, with fuel fixed to the potential
of the freshly incremented grid, which is proved sufficient below. -/
def drop (n : ℕ) (g gi : ℕ → ℕ → ℕ) (x y : ℕ) : Option DropState :=
  dropGo n (potential n (deposit g x y)) g gi x y

/-- Mean cell height of the grid, np.mean over the n by n array. -/
def avgGrid (n : ℕ) (g : ℕ → ℕ → ℕ) : ℚ := (gridSum n g : ℚ) / ((n : ℚ) * (n : ℚ))

/-- Embedding of the histogram bin lookup: the bin cutoffs are
np.linspace(0, max_cascade, num_bins + 1), whose k-th entry is
k * max_cascade / num_bins; the source takes the least index whose
cutoff strictly exceeds the cascade size and subtracts one, and the
surrounding try block turns the empty-match error into a skip. -/
def binIndex (max_cascade num_bins cs : ℕ) : Option ℕ :=
  match (List.range (num_bins + 1)).filter
      (fun (k : ℕ) => decide ((cs : ℚ) < (k : ℚ) * (max_cascade : ℚ) / (num_bins : ℚ))) with
  | [] => none
  | k0 :: _ => some (k0 - 1)

/-- Effect of one recorded avalanche on the histogram bin counts: on an
in-range size exactly one bin is incremented, and an out-of-range size
is silently discarded by the except branch. -/
def recordAvalanche (max_cascade num_bins : ℕ) (bc : ℕ → ℕ) (cs : ℕ) : ℕ → ℕ :=
  match binIndex max_cascade num_bins cs with
  | none => bc
  | some b => fun i => if i = b then bc i + 1 else bc i

/-- State owned by the simulation driver across iterations. -/
structure SimState where
  grid : ℕ → ℕ → ℕ
  grid_iter : ℕ → ℕ → ℕ
  avg : List ℚ
  bin_counts : ℕ → ℕ

/-- Initial driver state: the given starting grid, an all-zero
toppling count grid, the baseline mean recorded before any drop, and
empty histogram bins. -/
def initSim (n : ℕ) (g0 : ℕ → ℕ → ℕ) : SimState :=
  { grid := g0, grid_iter := fun _ _ => 0, avg := [avgGrid n g0],
    bin_counts := fun _ => 0 }

/-- One iteration of the source main loop at a given random pick: run
the drop, record the new mean, then try to bin the cascade size.  When
binning succeeds the toppling count grid is reset to zeros for the next
iteration; when the size is out of range the except branch continues
the loop at once, skipping the reset exactly as the source does. -/
def iteration (n max_cascade num_bins : ℕ) (st : SimState) (pick : ℕ × ℕ) :
    Option SimState :=
  (drop n st.grid st.grid_iter pick.1 pick.2).map fun d =>
    { grid := d.grid,
      grid_iter := match binIndex max_cascade num_bins d.cs with
        | some _ => fun _ _ => 0
        | none => d.grid_iter,
      avg := st.avg ++ [avgGrid n d.grid],
      bin_counts := recordAvalanche max_cascade num_bins st.bin_counts d.cs }


/-- Number of occurrences of a cell in a list of cells. -/
def occ (c : ℕ × ℕ) : List (ℕ × ℕ) → ℕ
  | [] => 0
  | p :: L => (if p = c then 1 else 0) + occ c L

/-- Sum of the coordinate weights of the at most two valid neighbors of
a coordinate along one axis. -/
def sideSum (n x : ℕ) : ℕ :=
  (if 1 ≤ x then lineWeight n (x - 1) else 0) +
    (if x + 1 < n then lineWeight n (x + 1) else 0)

/-- The histogram bin lookup with the cutoff comparison multiplied out
over the naturals; proved equal to binIndex below and used to evaluate
the binning on concrete sizes. -/
def binIndexN (max_cascade num_bins cs : ℕ) : Option ℕ :=
  match (List.range (num_bins + 1)).filter
      (fun (k : ℕ) => decide (cs * num_bins < k * max_cascade)) with
  | [] => none
  | k0 :: _ => some (k0 - 1)

/-- The all-zero grid. -/
def zeroG : ℕ → ℕ → ℕ := fun _ _ => 0

/-- Four deposits at the center cell of an all-zero 3 by 3 grid, one
fully relaxed drop at a time: the first concrete scenario of the spec. -/
def c1run : Option DropState :=
  (drop 3 zeroG zeroG 1 1).bind fun d1 =>
  (drop 3 d1.grid zeroG 1 1).bind fun d2 =>
  (drop 3 d2.grid zeroG 1 1).bind fun d3 =>
  drop 3 d3.grid zeroG 1 1

/-- Chain-reaction scenario grid: height three at cells (1,1) and
(0,1) of a 3 by 3 grid, zero elsewhere. -/
def chainGrid : ℕ → ℕ → ℕ := fun i j =>
  if (i = 1 ∧ j = 1) ∨ (i = 0 ∧ j = 1) then 3 else 0

/-- A stable 3 by 3 grid with height three on the four cells of the
upper-left square; depositing at (1,1) drives a three-wave cascade in
which the corner (0,0) topples at height five. -/
def c2grid : ℕ → ℕ → ℕ := fun i j =>
  if (i = 0 ∧ j = 0) ∨ (i = 0 ∧ j = 1) ∨ (i = 1 ∧ j = 0) ∨ (i = 1 ∧ j = 1) then 3 else 0

/-- Engine state of the c2grid drop right after the deposit at (1,1)
made that cell unstable. -/
def c2s0 : DropState := ⟨deposit c2grid 1 1, update2 zeroG 1 1 1, 1⟩

/-- State after the first wave of the c2grid drop. -/
def c2s1 : DropState := processBatch 3 [(1, 1)] c2s0

/-- State after the second wave of the c2grid drop. -/
def c2s2 : DropState := processBatch 3 (unstableCells 3 c2s1.grid) c2s1

/-- One-cell grid holding three grains: the deposit topples it with an
avalanche counter of two, which exceeds a max cascade of one. -/
def c4g0 : ℕ → ℕ → ℕ := fun _ _ => 3

/-- The drop state produced by the toppling drop on the one-cell
grid. -/
def c4d : DropState := (drop 1 c4g0 zeroG 0 0).getD ⟨zeroG, zeroG, 0⟩

/-- Result of a non-toppling drop at (0,0) on the all-zero 1 by 1
grid. -/
def c3res : DropState := ⟨deposit zeroG 0 0, zeroG, 0⟩

/-- Driver state after one non-toppling drop at the center of the
all-zero 3 by 3 grid with max cascade ten and five bins. -/
def c9res : SimState :=
  { grid := deposit zeroG 1 1, grid_iter := zeroG,
    avg := [avgGrid 3 zeroG, avgGrid 3 (deposit zeroG 1 1)],
    bin_counts := recordAvalanche 10 5 (fun _ => 0) 0 }

/-! ### Basic facts about the neighbor lookup and the rescan -/

lemma mem_getNeighbors {n : ℕ} {x y : ℤ} {p : ℤ × ℤ} :
    p ∈ getNeighbors n x y ↔
      ((p = (x - 1, y) ∨ p = (x, y - 1) ∨ p = (x, y + 1) ∨ p = (x + 1, y)) ∧
        0 ≤ p.1 ∧ p.1 < (n : ℤ) ∧ 0 ≤ p.2 ∧ p.2 < (n : ℤ)) := by
  simp [getNeighbors, List.mem_filter]

lemma mem_nbrList {n x y : ℕ} {c : ℕ × ℕ} :
    c ∈ nbrList n x y ↔ ((c.1 : ℤ), (c.2 : ℤ)) ∈ getNeighbors n (x : ℤ) (y : ℤ) := by
  obtain ⟨a, b⟩ := c
  constructor
  · intro h
    obtain ⟨p, hp, heq⟩ := List.mem_map.mp h
    have hb := (mem_getNeighbors.mp hp).2
    obtain ⟨rfl, rfl⟩ : p.1.toNat = a ∧ p.2.toNat = b := by
      simpa [Prod.ext_iff] using heq
    have hpe : ((p.1.toNat : ℤ), (p.2.toNat : ℤ)) = p := by
      rw [Prod.ext_iff]
      constructor <;> simp <;> omega
    rwa [hpe]
  · intro h
    exact List.mem_map.mpr ⟨((a : ℤ), (b : ℤ)), h, by simp⟩

lemma nbrList_mem_lt {n x y : ℕ} {c : ℕ × ℕ} (h : c ∈ nbrList n x y) :
    c.1 < n ∧ c.2 < n := by
  have := (mem_getNeighbors.mp (mem_nbrList.mp h)).2
  omega

lemma nbrList_nodup (n x y : ℕ) : (nbrList n x y).Nodup := by
  apply List.Nodup.map_on
  · intro p hp q hq heq
    have hp2 := (mem_getNeighbors.mp hp).2
    have hq2 := (mem_getNeighbors.mp hq).2
    rw [Prod.ext_iff] at heq ⊢
    simp only at heq
    omega
  · apply List.Nodup.filter
    simp [List.nodup_cons, Prod.ext_iff]
    omega

lemma self_not_mem_nbrList (n x y : ℕ) : (x, y) ∉ nbrList n x y := by
  intro h
  have := (mem_getNeighbors.mp (mem_nbrList.mp h)).1
  rcases this with h1 | h1 | h1 | h1 <;> rw [Prod.ext_iff] at h1 <;> simp only at h1 <;> omega

lemma occ_eq_zero_of_not_mem {c : ℕ × ℕ} : ∀ {L : List (ℕ × ℕ)}, c ∉ L → occ c L = 0 := by
  intro L
  induction L with
  | nil => intro _; rfl
  | cons p L ih =>
    intro h
    have hpc : ¬ p = c := fun hp => h (hp ▸ List.mem_cons_self p L)
    simp [occ, hpc, ih (fun hc => h (List.mem_cons_of_mem p hc))]

lemma one_le_occ_of_mem {c : ℕ × ℕ} : ∀ {L : List (ℕ × ℕ)}, c ∈ L → 1 ≤ occ c L := by
  intro L
  induction L with
  | nil => intro h; cases h
  | cons p L ih =>
    intro h
    rcases List.mem_cons.mp h with rfl | h
    · simp [occ]
    · have := ih h
      by_cases hpc : p = c
      · simp [occ, hpc]
      · simp [occ, hpc]
        omega

lemma occ_le_one_of_nodup {c : ℕ × ℕ} : ∀ {L : List (ℕ × ℕ)}, L.Nodup → occ c L ≤ 1 := by
  intro L
  induction L with
  | nil => intro _; simp [occ]
  | cons p L ih =>
    intro h
    rw [List.nodup_cons] at h
    by_cases hpc : p = c
    · subst hpc
      simp [occ, occ_eq_zero_of_not_mem h.1]
    · simp [occ, hpc]
      exact ih h.2

lemma occ_nbrList (n x y a b : ℕ) :
    occ (a, b) (nbrList n x y) =
      if ((a : ℤ), (b : ℤ)) ∈ getNeighbors n (x : ℤ) (y : ℤ) then 1 else 0 := by
  split
  · next h =>
    have hmem : (a, b) ∈ nbrList n x y := mem_nbrList.mpr h
    have h1 := one_le_occ_of_mem hmem
    have h2 := occ_le_one_of_nodup (c := (a, b)) (nbrList_nodup n x y)
    omega
  · next h =>
    exact occ_eq_zero_of_not_mem (fun hmem => h (mem_nbrList.mp hmem))

lemma mem_unstableCells {n : ℕ} {g : ℕ → ℕ → ℕ} {c : ℕ × ℕ} :
    c ∈ unstableCells n g ↔ c.1 < n ∧ c.2 < n ∧ 4 ≤ g c.1 c.2 := by
  obtain ⟨a, b⟩ := c
  simp [unstableCells, List.mem_flatMap, List.mem_filter, List.mem_range, List.mem_map]

lemma pairwise_flatMap {α β : Type} {R : α → α → Prop} {f : β → List α} :
    ∀ {l : List β}, l.Pairwise (fun a b => ∀ x ∈ f a, ∀ y ∈ f b, R x y) →
      (∀ b ∈ l, (f b).Pairwise R) → (l.flatMap f).Pairwise R := by
  intro l
  induction l with
  | nil => intro _ _; simp
  | cons a l ih =>
    intro hp hin
    rw [List.flatMap_cons, List.pairwise_append]
    refine ⟨hin a (by simp), ih hp.of_cons (fun b hb => hin b (by simp [hb])), ?_⟩
    intro x hx y hy
    obtain ⟨b, hb, hyb⟩ := List.mem_flatMap.mp hy
    exact (List.pairwise_cons.mp hp).1 b hb x hx y hyb

lemma unstableCells_pairwise (n : ℕ) (g : ℕ → ℕ → ℕ) :
    (unstableCells n g).Pairwise (fun p q => p.1 < q.1 ∨ (p.1 = q.1 ∧ p.2 < q.2)) := by
  apply pairwise_flatMap
  · apply List.Pairwise.imp ?_ (List.pairwise_lt_range n)
    intro i i' hlt
    intro x hx y hy
    obtain ⟨j, hj, rfl⟩ := List.mem_map.mp hx
    obtain ⟨j', hj', rfl⟩ := List.mem_map.mp hy
    exact Or.inl hlt
  · intro i _
    apply List.Pairwise.map
    · intro j j' hlt
      exact Or.inr ⟨rfl, hlt⟩
    · exact (List.pairwise_lt_range n).filter _

lemma unstableCells_nodup (n : ℕ) (g : ℕ → ℕ → ℕ) : (unstableCells n g).Nodup := by
  apply List.Pairwise.imp ?_ (unstableCells_pairwise n g)
  rintro ⟨a, b⟩ ⟨a', b'⟩ h heq
  rw [Prod.mk.injEq] at heq
  obtain ⟨rfl, rfl⟩ := heq
  rcases h with h | ⟨_, h⟩ <;> omega

/-! ### Pointwise behavior of a toppling step -/

lemma update2_apply (g : ℕ → ℕ → ℕ) (x y v a b : ℕ) :
    update2 g x y v a b = if a = x ∧ b = y then v else g a b := rfl

lemma foldl_deposit_apply :
    ∀ (L : List (ℕ × ℕ)) (g : ℕ → ℕ → ℕ) (a b : ℕ),
      (L.foldl (fun h p => deposit h p.1 p.2) g) a b = g a b + occ (a, b) L := by
  intro L
  induction L with
  | nil => intro g a b; simp [occ]
  | cons p L ih =>
    intro g a b
    rw [List.foldl_cons, ih]
    have : deposit g p.1 p.2 a b = g a b + (if p = (a, b) then 1 else 0) := by
      by_cases h : p = (a, b)
      · subst h
        simp [deposit, update2_apply]
      · have : ¬ (a = p.1 ∧ b = p.2) := by
          intro hc
          exact h (by rw [Prod.ext_iff]; omega)
        simp [deposit, update2_apply, this, h]
    rw [this, occ]
    omega

lemma toppleStep_grid_apply (n : ℕ) (s : DropState) (c : ℕ × ℕ) (a b : ℕ) :
    (toppleStep n s c).grid a b =
      (if a = c.1 ∧ b = c.2 then 0 else s.grid a b) + occ (a, b) (nbrList n c.1 c.2) := by
  simp only [toppleStep]
  rw [foldl_deposit_apply]
  rfl

lemma toppleStep_grid_self (n : ℕ) (s : DropState) (c : ℕ × ℕ) :
    (toppleStep n s c).grid c.1 c.2 = 0 := by
  rw [toppleStep_grid_apply]
  have h0 : occ (c.1, c.2) (nbrList n c.1 c.2) = 0 :=
    occ_eq_zero_of_not_mem (by simpa using self_not_mem_nbrList n c.1 c.2)
  simp [h0]

lemma toppleStep_grid_mono (n : ℕ) (s : DropState) (c : ℕ × ℕ) (a b : ℕ)
    (h : ¬ (a = c.1 ∧ b = c.2)) : s.grid a b ≤ (toppleStep n s c).grid a b := by
  rw [toppleStep_grid_apply]
  simp [h]

/-! ### Weighted sums under grid updates -/

lemma mem_cells {n : ℕ} {p : ℕ × ℕ} : p ∈ cells n ↔ p.1 < n ∧ p.2 < n := by
  simp [cells, Finset.mem_product]

lemma wsum_update2 (n : ℕ) (w : ℕ × ℕ → ℕ) (g : ℕ → ℕ → ℕ) (x y v : ℕ)
    (hx : x < n) (hy : y < n) :
    wsum n w (update2 g x y v) + g x y * w (x, y) = wsum n w g + v * w (x, y) := by
  have hmem : ((x, y) : ℕ × ℕ) ∈ cells n := mem_cells.mpr ⟨hx, hy⟩
  unfold wsum
  rw [← Finset.add_sum_erase _ _ hmem, ← Finset.add_sum_erase _ _ hmem]
  have hval : update2 g x y v x y = v := by simp [update2_apply]
  have hrest : ∑ p ∈ (cells n).erase (x, y), update2 g x y v p.1 p.2 * w p =
      ∑ p ∈ (cells n).erase (x, y), g p.1 p.2 * w p := by
    apply Finset.sum_congr rfl
    intro p hp
    have hne : p ≠ (x, y) := Finset.ne_of_mem_erase hp
    have : ¬ (p.1 = x ∧ p.2 = y) := by
      intro hc
      exact hne (by rw [Prod.ext_iff]; exact hc)
    rw [update2_apply]
    simp [this]
  rw [hval, hrest]
  ring

lemma wsum_deposit (n : ℕ) (w : ℕ × ℕ → ℕ) (g : ℕ → ℕ → ℕ) (x y : ℕ)
    (hx : x < n) (hy : y < n) :
    wsum n w (deposit g x y) = wsum n w g + w (x, y) := by
  have h := wsum_update2 n w g x y (g x y + 1) hx hy
  have hexp : (g x y + 1) * w (x, y) = g x y * w (x, y) + w (x, y) := by ring
  rw [hexp] at h
  unfold deposit
  linarith

lemma wsum_foldl_deposit (n : ℕ) (w : ℕ × ℕ → ℕ) :
    ∀ (L : List (ℕ × ℕ)) (g : ℕ → ℕ → ℕ), (∀ p ∈ L, p.1 < n ∧ p.2 < n) →
      wsum n w (L.foldl (fun h p => deposit h p.1 p.2) g) =
        wsum n w g + (L.map w).sum := by
  intro L
  induction L with
  | nil => intro g _; simp
  | cons p L ih =>
    intro g hin
    rw [List.foldl_cons, ih _ (fun q hq => hin q (List.mem_cons_of_mem p hq)),
      wsum_deposit n w g p.1 p.2 (hin p (List.mem_cons_self p L)).1
        (hin p (List.mem_cons_self p L)).2]
    simp [List.map_cons]
    ring

/-! ### The toppling potential strictly decreases -/

lemma lineWeight_pos {n x : ℕ} (hn : 0 < n) : 1 ≤ lineWeight n x := by
  have h : 0 < n ^ 2 := pow_pos hn 2
  unfold lineWeight
  omega

lemma sideSum_bound {n x : ℕ} (hx : x < n) : sideSum n x + 2 ≤ 2 * lineWeight n x := by
  unfold sideSum lineWeight
  by_cases h1 : 1 ≤ x
  · by_cases h2 : x + 1 < n
    · -- interior coordinate: both neighbors valid, exact equality
      obtain ⟨a, rfl⟩ : ∃ a, x = a + 1 := ⟨x - 1, by omega⟩
      obtain ⟨m, rfl⟩ : ∃ m, n = a + m + 3 := ⟨n - a - 3, by omega⟩
      rw [if_pos h1, if_pos h2]
      have e1 : a + 1 - 1 = a := by omega
      have e2 : a + m + 3 - 1 - a = m + 2 := by omega
      have e3 : a + m + 3 - 1 - (a + 1 + 1) = m := by omega
      have e4 : a + m + 3 - 1 - (a + 1) = m + 1 := by omega
      rw [e1, e2, e3, e4]
      exact le_of_eq (by ring)
    · -- rightmost coordinate
      obtain ⟨a, rfl⟩ : ∃ a, x = a + 1 := ⟨x - 1, by omega⟩
      obtain ⟨rfl⟩ : n = a + 2 := by omega
      rw [if_pos h1, if_neg h2]
      have e1 : a + 1 - 1 = a := by omega
      have e2 : a + 2 - 1 - a = 1 := by omega
      have e3 : a + 2 - 1 - (a + 1) = 0 := by omega
      rw [e1, e2, e3]
      nlinarith
  · have hx0 : x = 0 := by omega
    subst hx0
    by_cases h2 : 0 + 1 < n
    · obtain ⟨m, rfl⟩ : ∃ m, n = m + 2 := ⟨n - 2, by omega⟩
      rw [if_neg h1, if_pos h2]
      have e1 : m + 2 - 1 - (0 + 1) = m := by omega
      have e2 : m + 2 - 1 - 0 = m + 1 := by omega
      rw [e1, e2]
      nlinarith
    · have hn : n = 1 := by omega
      subst hn
      norm_num

lemma sum_map_filter {α : Type} (q : α → Bool) (v : α → ℕ) :
    ∀ (l : List α), ((l.filter q).map v).sum = (l.map (fun a => if q a then v a else 0)).sum := by
  intro l
  induction l with
  | nil => rfl
  | cons a l ih =>
    rw [List.filter_cons]
    by_cases h : q a
    · rw [if_pos h, List.map_cons, List.sum_cons, List.map_cons, List.sum_cons, ih, if_pos h]
    · rw [if_neg h, List.map_cons, List.sum_cons, ih, if_neg h]
      omega

lemma ite_of_iff {c : Bool} {P : Prop} [Decidable P] (h : c = true ↔ P) (a b : ℕ) :
    (if c then a else b) = (if P then a else b) := by
  by_cases hP : P
  · rw [if_pos (h.mpr hP), if_pos hP]
  · rw [if_neg (fun hc => hP (h.mp hc)), if_neg hP]

lemma nbr_weight_sum {n x y : ℕ} (hx : x < n) (hy : y < n) :
    ((nbrList n x y).map (cellWeight n)).sum + 4 ≤ 4 * cellWeight n (x, y) := by
  have hiff1 : (decide (0 ≤ (x:ℤ) - 1 ∧ (x:ℤ) - 1 < (n:ℤ) ∧ 0 ≤ (y:ℤ) ∧ (y:ℤ) < (n:ℤ)) = true)
      ↔ 1 ≤ x := by
    simp only [decide_eq_true_eq]
    omega
  have hiff2 : (decide (0 ≤ (x:ℤ) ∧ (x:ℤ) < (n:ℤ) ∧ 0 ≤ (y:ℤ) - 1 ∧ (y:ℤ) - 1 < (n:ℤ)) = true)
      ↔ 1 ≤ y := by
    simp only [decide_eq_true_eq]
    omega
  have hiff3 : (decide (0 ≤ (x:ℤ) ∧ (x:ℤ) < (n:ℤ) ∧ 0 ≤ (y:ℤ) + 1 ∧ (y:ℤ) + 1 < (n:ℤ)) = true)
      ↔ y + 1 < n := by
    simp only [decide_eq_true_eq]
    omega
  have hiff4 : (decide (0 ≤ (x:ℤ) + 1 ∧ (x:ℤ) + 1 < (n:ℤ) ∧ 0 ≤ (y:ℤ) ∧ (y:ℤ) < (n:ℤ)) = true)
      ↔ x + 1 < n := by
    simp only [decide_eq_true_eq]
    omega
  have hrw : ((nbrList n x y).map (cellWeight n)).sum =
      sideSum n x * lineWeight n y + lineWeight n x * sideSum n y := by
    unfold nbrList getNeighbors
    rw [List.map_map, sum_map_filter]
    simp only [List.map_cons, List.map_nil, List.sum_cons, List.sum_nil, Function.comp_apply,
      add_zero]
    rw [ite_of_iff hiff1, ite_of_iff hiff2, ite_of_iff hiff3, ite_of_iff hiff4]
    rw [show ((x:ℤ) - 1).toNat = x - 1 by omega, show ((x:ℤ) + 1).toNat = x + 1 by omega,
      show ((y:ℤ) - 1).toNat = y - 1 by omega, show ((y:ℤ) + 1).toNat = y + 1 by omega,
      show ((x:ℤ)).toNat = x by omega, show ((y:ℤ)).toNat = y by omega]
    unfold sideSum cellWeight
    rw [add_mul, mul_add]
    rw [ite_mul, ite_mul, mul_ite, mul_ite]
    simp only [zero_mul, mul_zero]
    ring
  rw [hrw]
  have hn : 0 < n := lt_of_le_of_lt (Nat.zero_le x) hx
  have hbx := sideSum_bound hx
  have hby := sideSum_bound hy
  have hux := lineWeight_pos (x := x) hn
  have huy := lineWeight_pos (x := y) hn
  have m1 : (sideSum n x + 2) * lineWeight n y ≤ (2 * lineWeight n x) * lineWeight n y :=
    Nat.mul_le_mul_right _ hbx
  have m2 : lineWeight n x * (sideSum n y + 2) ≤ lineWeight n x * (2 * lineWeight n y) :=
    Nat.mul_le_mul_left _ hby
  have e1 : (sideSum n x + 2) * lineWeight n y =
      sideSum n x * lineWeight n y + 2 * lineWeight n y := by ring
  have e2 : lineWeight n x * (sideSum n y + 2) =
      lineWeight n x * sideSum n y + 2 * lineWeight n x := by ring
  have e3 : lineWeight n x * (2 * lineWeight n y) = (2 * lineWeight n x) * lineWeight n y := by
    ring
  have hW : cellWeight n (x, y) = lineWeight n x * lineWeight n y := rfl
  rw [e1] at m1
  rw [e2, e3] at m2
  rw [hW]
  nlinarith

lemma wsum_toppleStep (n : ℕ) (w : ℕ × ℕ → ℕ) (s : DropState) (c : ℕ × ℕ)
    (hc1 : c.1 < n) (hc2 : c.2 < n) :
    wsum n w ((toppleStep n s c).grid) + s.grid c.1 c.2 * w (c.1, c.2) =
      wsum n w s.grid + ((nbrList n c.1 c.2).map w).sum := by
  have hfold := wsum_foldl_deposit n w (nbrList n c.1 c.2) (update2 s.grid c.1 c.2 0)
    (fun p hp => nbrList_mem_lt hp)
  have hzero := wsum_update2 n w s.grid c.1 c.2 0 hc1 hc2
  simp only [toppleStep] at *
  rw [hfold]
  omega

lemma potential_toppleStep (n : ℕ) (s : DropState) (c : ℕ × ℕ)
    (hc1 : c.1 < n) (hc2 : c.2 < n) (h4 : 4 ≤ s.grid c.1 c.2) :
    potential n ((toppleStep n s c).grid) + 4 ≤ potential n s.grid := by
  have h := wsum_toppleStep n (cellWeight n) s c hc1 hc2
  have hb := nbr_weight_sum hc1 hc2
  have hn : 0 < n := lt_of_le_of_lt (Nat.zero_le c.1) hc1
  have hW : 1 ≤ cellWeight n (c.1, c.2) :=
    Nat.one_le_iff_ne_zero.mpr (by
      have := Nat.mul_le_mul (lineWeight_pos (x := c.1) hn) (lineWeight_pos (x := c.2) hn)
      simp only [cellWeight]
      omega)
  have hmul : 4 * cellWeight n (c.1, c.2) ≤ s.grid c.1 c.2 * cellWeight n (c.1, c.2) :=
    Nat.mul_le_mul_right _ h4
  unfold potential at *
  omega

lemma potential_processBatch (n : ℕ) :
    ∀ (batch : List (ℕ × ℕ)) (s : DropState), batch.Nodup →
      (∀ c ∈ batch, c.1 < n ∧ c.2 < n ∧ 4 ≤ s.grid c.1 c.2) →
      potential n ((processBatch n batch s).grid) + 4 * batch.length ≤ potential n s.grid := by
  intro batch
  induction batch with
  | nil => intro s _ _; simp [processBatch]
  | cons c rest ih =>
    intro s hnd hmem
    have hc := hmem c (List.mem_cons_self c rest)
    have hstep := potential_toppleStep n s c hc.1 hc.2.1 hc.2.2
    have hrest : ∀ q ∈ rest, q.1 < n ∧ q.2 < n ∧ 4 ≤ (toppleStep n s c).grid q.1 q.2 := by
      intro q hq
      have hqm := hmem q (List.mem_cons_of_mem c hq)
      have hne : ¬ (q.1 = c.1 ∧ q.2 = c.2) := by
        intro hc2
        have : q = c := by rw [Prod.ext_iff]; exact hc2
        exact (List.nodup_cons.mp hnd).1 (this ▸ hq)
      have := toppleStep_grid_mono n s c q.1 q.2 hne
      exact ⟨hqm.1, hqm.2.1, le_trans hqm.2.2 this⟩
    have := ih (toppleStep n s c) (List.nodup_cons.mp hnd).2 hrest
    have hpb : processBatch n (c :: rest) s = processBatch n rest (toppleStep n s c) := rfl
    rw [hpb, List.length_cons]
    omega

lemma potential_pos_of_unstable (n : ℕ) (s : DropState) (c : ℕ × ℕ)
    (hc1 : c.1 < n) (hc2 : c.2 < n) (h4 : 4 ≤ s.grid c.1 c.2) :
    4 ≤ potential n s.grid := by
  have hn : 0 < n := lt_of_le_of_lt (Nat.zero_le c.1) hc1
  have hW : 1 ≤ cellWeight n (c.1, c.2) := by
    have := Nat.mul_le_mul (lineWeight_pos (x := c.1) hn) (lineWeight_pos (x := c.2) hn)
    simp only [cellWeight]
    omega
  have hsingle : s.grid c.1 c.2 * cellWeight n (c.1, c.2) ≤ potential n s.grid := by
    unfold potential wsum
    exact Finset.single_le_sum (f := fun p => s.grid p.1 p.2 * cellWeight n p)
      (fun p _ => Nat.zero_le _) (mem_cells.mpr ⟨hc1, hc2⟩)
  have := Nat.mul_le_mul h4 hW
  omega

/-! ### The relaxation loop terminates and leaves the grid stable -/

lemma relaxFuel_stable (n : ℕ) :
    ∀ (fuel : ℕ) (batch : List (ℕ × ℕ)) (s s' : DropState),
      relaxFuel n fuel batch s = some s' →
      (∀ c ∈ unstableCells n s.grid, c ∈ batch) →
      ∀ i j, i < n → j < n → s'.grid i j < 4 := by
  intro fuel
  induction fuel with
  | zero =>
    intro batch s s' h hsub i j hi hj
    rw [relaxFuel] at h
    split at h
    · next hb =>
      obtain rfl : s = s' := by injection h
      by_contra hge
      have : (i, j) ∈ unstableCells n s.grid := mem_unstableCells.mpr ⟨hi, hj, show 4 ≤ s.grid i j by omega⟩
      have := hsub _ this
      rw [hb] at this
      cases this
    · cases h
  | succ fuel ih =>
    intro batch s s' h hsub i j hi hj
    rw [relaxFuel] at h
    split at h
    · next hb =>
      obtain rfl : s = s' := by injection h
      by_contra hge
      have : (i, j) ∈ unstableCells n s.grid := mem_unstableCells.mpr ⟨hi, hj, show 4 ≤ s.grid i j by omega⟩
      have := hsub _ this
      rw [hb] at this
      cases this
    · exact ih _ _ _ h (fun c hc => hc) i j hi hj

lemma relaxFuel_terminates (n : ℕ) :
    ∀ (fuel : ℕ) (batch : List (ℕ × ℕ)) (s : DropState), batch.Nodup →
      (∀ c ∈ batch, c.1 < n ∧ c.2 < n ∧ 4 ≤ s.grid c.1 c.2) →
      potential n s.grid ≤ fuel →
      ∃ s', relaxFuel n fuel batch s = some s' := by
  intro fuel
  induction fuel with
  | zero =>
    intro batch s hnd hmem hfuel
    match batch, hmem with
    | [], _ => exact ⟨s, rfl⟩
    | c :: rest, hmem =>
      have hc := hmem c (List.mem_cons_self c rest)
      have := potential_pos_of_unstable n s c hc.1 hc.2.1 hc.2.2
      omega
  | succ fuel ih =>
    intro batch s hnd hmem hfuel
    match batch, hnd, hmem with
    | [], _, _ => exact ⟨s, rfl⟩
    | c :: rest, hnd, hmem =>
      have hdec := potential_processBatch n (c :: rest) s hnd hmem
      have hlen : 1 ≤ (c :: rest).length := by simp
      have hfuel' : potential n ((processBatch n (c :: rest) s).grid) ≤ fuel := by
        have : 4 * (c :: rest).length ≥ 4 := by omega
        omega
      obtain ⟨s', hs'⟩ := ih (unstableCells n ((processBatch n (c :: rest) s).grid))
        (processBatch n (c :: rest) s)
        (unstableCells_nodup n _)
        (fun q hq => mem_unstableCells.mp hq)
        hfuel'
      refine ⟨s', ?_⟩
      rw [relaxFuel]
      rw [if_neg (by simp)]
      exact hs'

lemma deposit_apply (g : ℕ → ℕ → ℕ) (x y a b : ℕ) :
    deposit g x y a b = if a = x ∧ b = y then g x y + 1 else g a b := rfl

lemma unstableCells_nil_of_stable {n : ℕ} {g : ℕ → ℕ → ℕ}
    (h : ∀ i j, i < n → j < n → g i j < 4) : unstableCells n g = [] := by
  rw [List.eq_nil_iff_forall_not_mem]
  intro c hc
  obtain ⟨h1, h2, h3⟩ := mem_unstableCells.mp hc
  have := h c.1 c.2 h1 h2
  omega

lemma unstableCells_deposit_subset {n : ℕ} {g : ℕ → ℕ → ℕ} {x y : ℕ}
    (hst : ∀ i j, i < n → j < n → g i j < 4) :
    ∀ c ∈ unstableCells n (deposit g x y), c ∈ [(x, y)] := by
  intro c hc
  obtain ⟨h1, h2, h3⟩ := mem_unstableCells.mp hc
  rw [deposit_apply] at h3
  by_cases he : c.1 = x ∧ c.2 = y
  · simp only [List.mem_singleton]
    rw [Prod.ext_iff]
    exact he
  · rw [if_neg he] at h3
    have := hst c.1 c.2 h1 h2
    omega

/-- C3 helper: a returned drop leaves every cell strictly below the
threshold, provided the grid was stable on entry. -/
lemma dropGo_stable {n fuel : ℕ} {g gi : ℕ → ℕ → ℕ} {x y : ℕ} {s : DropState}
    (hst : ∀ i j, i < n → j < n → g i j < 4)
    (hd : dropGo n fuel g gi x y = some s) :
    ∀ i j, i < n → j < n → s.grid i j < 4 := by
  unfold dropGo at hd
  simp only at hd
  by_cases h4 : 4 ≤ deposit g x y x y
  · rw [if_pos h4] at hd
    exact relaxFuel_stable n fuel [(x, y)] _ s hd (unstableCells_deposit_subset hst)
  · rw [if_neg h4] at hd
    obtain rfl : (⟨deposit g x y, gi, 0⟩ : DropState) = s := by injection hd
    intro i j hi hj
    simp only
    rw [deposit_apply]
    by_cases he : i = x ∧ j = y
    · rw [if_pos he]
      rw [deposit_apply, if_pos ⟨rfl, rfl⟩] at h4
      omega
    · rw [if_neg he]
      exact hst i j hi hj

lemma drop_terminates_aux {n : ℕ} {g gi : ℕ → ℕ → ℕ} {x y : ℕ}
    (hx : x < n) (hy : y < n) :
    ∃ s, drop n g gi x y = some s := by
  unfold drop dropGo
  simp only
  by_cases h4 : 4 ≤ deposit g x y x y
  · rw [if_pos h4]
    exact relaxFuel_terminates n (potential n (deposit g x y)) [(x, y)] _
      (List.nodup_singleton _)
      (by
        intro c hc
        rw [List.mem_singleton] at hc
        subst hc
        exact ⟨hx, hy, h4⟩)
      le_rfl
  · rw [if_neg h4]
    exact ⟨_, rfl⟩

lemma sum_map_one : ∀ (L : List (ℕ × ℕ)), (L.map (fun _ => 1)).sum = L.length := by
  intro L
  induction L with
  | nil => rfl
  | cons p L ih => simp [ih]; omega

/-! ### Claim theorems -/

/-- C7.  The neighbor function is a pure function of the coordinates
and the grid size: for every in-range cell it returns exactly the four
orthogonal offsets whose both coordinates lie inside the lattice, so at
most four cells, with out-of-lattice offsets excluded. -/
theorem getNeighbors_spec (n : ℕ) (x y : ℤ)
    (hx : 0 ≤ x ∧ x < (n : ℤ)) (hy : 0 ≤ y ∧ y < (n : ℤ)) :
    (∀ p : ℤ × ℤ, p ∈ getNeighbors n x y ↔
      ((p = (x - 1, y) ∨ p = (x + 1, y) ∨ p = (x, y - 1) ∨ p = (x, y + 1)) ∧
        0 ≤ p.1 ∧ p.1 < (n : ℤ) ∧ 0 ≤ p.2 ∧ p.2 < (n : ℤ))) ∧
    (getNeighbors n x y).length ≤ 4 := by
  constructor
  · intro p
    rw [mem_getNeighbors]
    tauto
  · calc (getNeighbors n x y).length ≤
        ([(x - 1, y), (x, y - 1), (x, y + 1), (x + 1, y)] : List (ℤ × ℤ)).length :=
          List.length_filter_le _ _
    _ = 4 := rfl

/-- C7 witness. -/
theorem getNeighbors_spec_witness :
    ((0 ≤ (1 : ℤ) ∧ (1 : ℤ) < ((3 : ℕ) : ℤ)) ∧ (0 ≤ (1 : ℤ) ∧ (1 : ℤ) < ((3 : ℕ) : ℤ))) ∧
    ((∀ p : ℤ × ℤ, p ∈ getNeighbors 3 1 1 ↔
      ((p = (1 - 1, 1) ∨ p = (1 + 1, 1) ∨ p = (1, 1 - 1) ∨ p = (1, 1 + 1)) ∧
        0 ≤ p.1 ∧ p.1 < ((3 : ℕ) : ℤ) ∧ 0 ≤ p.2 ∧ p.2 < ((3 : ℕ) : ℤ))) ∧
      (getNeighbors 3 1 1).length ≤ 4) :=
  ⟨⟨by norm_num, by norm_num⟩, getNeighbors_spec 3 1 1 (by norm_num) (by norm_num)⟩

/-- C10.  The rescan lists every currently unstable cell exactly once,
in strictly increasing row-major order (ascending first index, then
ascending second index), so within one wave no cell is toppled more
than once and the batch order is determined by the grid state. -/
theorem unstableCells_spec (n : ℕ) (g : ℕ → ℕ → ℕ) :
    (∀ c : ℕ × ℕ, c ∈ unstableCells n g ↔ (c.1 < n ∧ c.2 < n ∧ 4 ≤ g c.1 c.2)) ∧
    (unstableCells n g).Pairwise (fun p q => p.1 < q.1 ∨ (p.1 = q.1 ∧ p.2 < q.2)) ∧
    (∀ c : ℕ × ℕ, occ c (unstableCells n g) ≤ 1) :=
  ⟨fun _ => mem_unstableCells, unstableCells_pairwise n g,
    fun _ => occ_le_one_of_nodup (unstableCells_nodup n g)⟩

/-- C3.  Post-drop stability: a drop performed on a stable grid leaves
every cell of the returned grid strictly below the topple threshold. -/
theorem post_drop_stability (n : ℕ) (g gi : ℕ → ℕ → ℕ) (x y : ℕ) (s : DropState)
    (hst : ∀ i j, i < n → j < n → g i j < 4)
    (hd : drop n g gi x y = some s) :
    ∀ i j, i < n → j < n → s.grid i j < 4 :=
  dropGo_stable hst hd

/-- C8.  Termination of relaxation: depositing one grain on a stable
grid always finishes after finitely many waves, ending with a rescan
that finds no unstable cell.  The number of waves is bounded by the
potential of the grid right after the deposit, which is the fuel used
by the drop function. -/
theorem drop_relaxation_terminates (n : ℕ) (g gi : ℕ → ℕ → ℕ) (x y : ℕ)
    (hx : x < n) (hy : y < n)
    (hst : ∀ i j, i < n → j < n → g i j < 4) :
    ∃ s, drop n g gi x y = some s ∧ unstableCells n s.grid = [] := by
  obtain ⟨s, hs⟩ := @drop_terminates_aux n g gi x y hx hy
  exact ⟨s, hs, unstableCells_nil_of_stable (dropGo_stable hst hs)⟩

/-- C2 amended.  Mass change of one toppling step: zeroing the cell and
feeding each valid neighbor one grain changes the total mass by the
number of valid neighbors minus the height the cell had at that moment;
the claimed accounting (unchanged for four valid neighbors, minus
4 - k for k valid neighbors) is the special case of a cell toppling at
height exactly four. -/
theorem topple_mass_change (n : ℕ) (s : DropState) (x y : ℕ)
    (hx : x < n) (hy : y < n) :
    gridSum n ((toppleStep n s (x, y)).grid) + s.grid x y =
      gridSum n s.grid + (getNeighbors n (x : ℤ) (y : ℤ)).length := by
  have h := wsum_toppleStep n (fun _ => 1) s (x, y) hx hy
  simp only [mul_one] at h
  rw [sum_map_one] at h
  unfold gridSum
  rw [h]
  unfold nbrList
  rw [List.length_map]

/-- C2 amended witness. -/
theorem topple_mass_change_witness :
    ((1 : ℕ) < 3 ∧ (1 : ℕ) < 3) ∧
    gridSum 3 ((toppleStep 3 ⟨fun _ _ => 0, fun _ _ => 0, 0⟩ (1, 1)).grid) +
        (fun _ _ => (0 : ℕ)) 1 1 =
      gridSum 3 (fun _ _ => (0 : ℕ)) + (getNeighbors 3 ((1 : ℕ) : ℤ) ((1 : ℕ) : ℤ)).length :=
  ⟨⟨by norm_num, by norm_num⟩,
    topple_mass_change 3 ⟨fun _ _ => 0, fun _ _ => 0, 0⟩ 1 1 (by norm_num) (by norm_num)⟩

/-- C6.  Wave protocol semantics: a wave folds the toppling step over
the fixed pre-captured batch in the batch's list order; each step
unconditionally zeroes the cell whatever its height, adds one to its
toppled count and to the avalanche counter, adds one grain to exactly
the valid neighbors, and touches no other cell; the rescan happens only
after the whole batch is folded. -/
theorem wave_protocol_semantics (n : ℕ) (s : DropState) (c : ℕ × ℕ)
    (_hc1 : c.1 < n) (_hc2 : c.2 < n) :
    ((toppleStep n s c).grid c.1 c.2 = 0 ∧
      (toppleStep n s c).cs = s.cs + 1 ∧
      (toppleStep n s c).grid_iter c.1 c.2 = s.grid_iter c.1 c.2 + 1 ∧
      (∀ a b : ℕ, ¬ (a = c.1 ∧ b = c.2) →
        (toppleStep n s c).grid a b = s.grid a b +
          (if ((a : ℤ), (b : ℤ)) ∈ getNeighbors n (c.1 : ℤ) (c.2 : ℤ) then 1 else 0)) ∧
      (∀ a b : ℕ, ¬ (a = c.1 ∧ b = c.2) →
        (toppleStep n s c).grid_iter a b = s.grid_iter a b)) ∧
    (∀ batch : List (ℕ × ℕ), processBatch n batch s = batch.foldl (toppleStep n) s) ∧
    (∀ (fuel : ℕ) (batch : List (ℕ × ℕ)), batch ≠ [] →
      relaxFuel n (fuel + 1) batch s =
        relaxFuel n fuel (unstableCells n ((processBatch n batch s).grid))
          (processBatch n batch s)) := by
  refine ⟨⟨toppleStep_grid_self n s c, rfl, ?_, ?_, ?_⟩, fun _ => rfl, ?_⟩
  · simp [toppleStep, update2_apply]
  · intro a b hne
    rw [toppleStep_grid_apply, if_neg hne, occ_nbrList]
  · intro a b hne
    simp [toppleStep, update2_apply, hne]
  · intro fuel batch hb
    rw [relaxFuel, if_neg hb]

/-- C6 witness. -/
theorem wave_protocol_semantics_witness :
    (((1, 1) : ℕ × ℕ).1 < 3 ∧ ((1, 1) : ℕ × ℕ).2 < 3) ∧
    (((toppleStep 3 ⟨zeroG, zeroG, 0⟩ (1, 1)).grid ((1, 1) : ℕ × ℕ).1 ((1, 1) : ℕ × ℕ).2 = 0 ∧
      (toppleStep 3 ⟨zeroG, zeroG, 0⟩ (1, 1)).cs = (⟨zeroG, zeroG, 0⟩ : DropState).cs + 1 ∧
      (toppleStep 3 ⟨zeroG, zeroG, 0⟩ (1, 1)).grid_iter ((1, 1) : ℕ × ℕ).1 ((1, 1) : ℕ × ℕ).2 =
        (⟨zeroG, zeroG, 0⟩ : DropState).grid_iter ((1, 1) : ℕ × ℕ).1 ((1, 1) : ℕ × ℕ).2 + 1 ∧
      (∀ a b : ℕ, ¬ (a = ((1, 1) : ℕ × ℕ).1 ∧ b = ((1, 1) : ℕ × ℕ).2) →
        (toppleStep 3 ⟨zeroG, zeroG, 0⟩ (1, 1)).grid a b =
          (⟨zeroG, zeroG, 0⟩ : DropState).grid a b +
          (if ((a : ℤ), (b : ℤ)) ∈
              getNeighbors 3 (((1, 1) : ℕ × ℕ).1 : ℤ) (((1, 1) : ℕ × ℕ).2 : ℤ) then 1 else 0)) ∧
      (∀ a b : ℕ, ¬ (a = ((1, 1) : ℕ × ℕ).1 ∧ b = ((1, 1) : ℕ × ℕ).2) →
        (toppleStep 3 ⟨zeroG, zeroG, 0⟩ (1, 1)).grid_iter a b =
          (⟨zeroG, zeroG, 0⟩ : DropState).grid_iter a b)) ∧
    (∀ batch : List (ℕ × ℕ),
      processBatch 3 batch ⟨zeroG, zeroG, 0⟩ = batch.foldl (toppleStep 3) ⟨zeroG, zeroG, 0⟩) ∧
    (∀ (fuel : ℕ) (batch : List (ℕ × ℕ)), batch ≠ [] →
      relaxFuel 3 (fuel + 1) batch ⟨zeroG, zeroG, 0⟩ =
        relaxFuel 3 fuel (unstableCells 3 ((processBatch 3 batch ⟨zeroG, zeroG, 0⟩).grid))
          (processBatch 3 batch ⟨zeroG, zeroG, 0⟩))) :=
  ⟨⟨by norm_num, by norm_num⟩,
    wave_protocol_semantics 3 ⟨zeroG, zeroG, 0⟩ (1, 1) (by norm_num) (by norm_num)⟩

/-- C3 witness. -/
theorem post_drop_stability_witness :
    ((∀ i j, i < 1 → j < 1 → zeroG i j < 4) ∧ drop 1 zeroG zeroG 0 0 = some c3res) ∧
    (∀ i j, i < 1 → j < 1 → c3res.grid i j < 4) :=
  ⟨⟨fun i j _ _ => by simp [zeroG], rfl⟩,
    post_drop_stability 1 zeroG zeroG 0 0 c3res (fun i j _ _ => by simp [zeroG]) rfl⟩

/-- C8 witness. -/
theorem drop_relaxation_terminates_witness :
    ((0 < 1 ∧ 0 < 1) ∧ (∀ i j, i < 1 → j < 1 → zeroG i j < 4)) ∧
    (∃ s, drop 1 zeroG zeroG 0 0 = some s ∧ unstableCells 1 s.grid = []) :=
  ⟨⟨⟨by norm_num, by norm_num⟩, fun i j _ _ => by simp [zeroG]⟩,
    drop_relaxation_terminates 1 zeroG zeroG 0 0 (by norm_num) (by norm_num)
      (fun i j _ _ => by simp [zeroG])⟩

/-- C1 counterexample.  In the four-deposits-at-center scenario the
drop in which the center cell topples exactly once reports avalanche
size two, not one: the counter is incremented once when the initiating
deposit is detected as unstable and once more when the first wave
processes that same cell. -/
theorem single_topple_avalanche_size_not_one :
    c1run.map DropState.cs ≠ some 1 ∧ c1run.map DropState.cs = some 2 := by
  constructor
  · decide
  · decide

/-- C1 amended.  The avalanche counter double counts the initiating
toppling: the single-topple scenario reports size two and per-drop
toppled count two for the center cell, and the chain-reaction scenario
with two topplings reports size three. -/
theorem avalanche_size_counts_initial_deposit_twice :
    c1run.map DropState.cs = some 2 ∧
    (c1run.map fun d => d.grid_iter 1 1) = some 2 ∧
    (drop 3 chainGrid zeroG 1 1).map DropState.cs = some 3 := by
  refine ⟨by decide, by decide, by decide⟩

/-- C2 counterexample.  In the drop at (1,1) on c2grid the third wave
topples the corner cell (0,0), which has two valid neighbors but holds
five grains at that moment because both of its neighbors toppled into
it during the second wave; that single toppling step lowers the total
mass from eleven to eight, a loss of three, while the claim predicts a
loss of exactly two for a cell with two valid neighbors. -/
theorem boundary_topple_at_height_five_loses_three :
    unstableCells 3 c2s1.grid = [(0, 1), (1, 0)] ∧
    unstableCells 3 c2s2.grid = [(0, 0)] ∧
    c2s2.grid 0 0 = 5 ∧
    (getNeighbors 3 0 0).length = 2 ∧
    gridSum 3 c2s2.grid = 11 ∧
    gridSum 3 ((toppleStep 3 c2s2 (0, 0)).grid) = 8 ∧
    (drop 3 c2grid zeroG 1 1).map DropState.cs = some 5 := by
  refine ⟨by decide, by decide, by decide, by decide, by decide, by decide, by decide⟩

/-! ### Histogram binning -/

lemma filter_range_head :
    ∀ (m : ℕ) (p : ℕ → Bool) (k : ℕ) (rest : List ℕ),
      (List.range m).filter p = k :: rest → p k = true ∧ ∀ j, j < k → p j = false := by
  intro m
  induction m with
  | zero => intro p k rest h; simp [List.range_zero] at h
  | succ m ih =>
    intro p k rest h
    rw [List.range_succ_eq_map, List.filter_cons] at h
    by_cases h0 : p 0
    · rw [if_pos h0] at h
      have hk : 0 = k := by injection h with h1 h2
      subst hk
      exact ⟨h0, fun j hj => absurd hj (by omega)⟩
    · rw [if_neg h0] at h
      rw [List.filter_map] at h
      cases hf : (List.range m).filter (p ∘ Nat.succ) with
      | nil =>
        rw [hf] at h
        simp at h
      | cons k' rest' =>
        rw [hf, List.map_cons] at h
        have hk : Nat.succ k' = k := by injection h with h1 h2
        obtain ⟨hpk', hmin⟩ := ih (p ∘ Nat.succ) k' rest' hf
        subst hk
        refine ⟨hpk', ?_⟩
        intro j hj
        match j with
        | 0 => exact (Bool.not_eq_true _).mp h0
        | j + 1 => exact hmin j (by omega)

lemma binIndex_eq_binIndexN (mc nb cs : ℕ) (hnb : 0 < nb) :
    binIndex mc nb cs = binIndexN mc nb cs := by
  have hfe : (List.range (nb + 1)).filter
        (fun (k : ℕ) => decide ((cs : ℚ) < (k : ℚ) * (mc : ℚ) / (nb : ℚ))) =
      (List.range (nb + 1)).filter (fun (k : ℕ) => decide (cs * nb < k * mc)) := by
    apply List.filter_congr
    intro k _
    have hq : ((cs : ℚ) < (k : ℚ) * (mc : ℚ) / (nb : ℚ)) ↔ (cs * nb < k * mc) := by
      rw [lt_div_iff₀ (by exact_mod_cast hnb)]
      constructor
      · intro h
        exact_mod_cast h
      · intro h
        exact_mod_cast h
    simp only [decide_eq_decide]
    exact hq
  unfold binIndex binIndexN
  rw [hfe]

/-- C5.  Histogram domain policy: an avalanche size at or above the
maximum changes no bin and raises no error (the empty index search is
caught and skipped, with no clamping); a size below the maximum
increments exactly one bin, the one among the num_bins equal-width
half-open cutoff intervals of [0, max_cascade) that contains it. -/
theorem histogram_binning_policy (mc nb cs : ℕ) (bc : ℕ → ℕ)
    (_hmc : 0 < mc) (hnb : 0 < nb) :
    (mc ≤ cs → binIndex mc nb cs = none ∧ ∀ i, recordAvalanche mc nb bc cs i = bc i) ∧
    (cs < mc → ∃ b, binIndex mc nb cs = some b ∧ b < nb ∧
      (b : ℚ) * (mc : ℚ) / (nb : ℚ) ≤ (cs : ℚ) ∧
      (cs : ℚ) < ((b : ℚ) + 1) * (mc : ℚ) / (nb : ℚ) ∧
      (∀ i, recordAvalanche mc nb bc cs i = if i = b then bc i + 1 else bc i)) ∧
    binIndex 10 5 9 = some 4 ∧ binIndex 10 5 10 = none ∧ binIndex 10 5 15 = none := by
  refine ⟨?_, ?_, ?_, ?_, ?_⟩
  · intro hle
    have hnone : binIndex mc nb cs = none := by
      rw [binIndex_eq_binIndexN mc nb cs hnb]
      unfold binIndexN
      have hfe : (List.range (nb + 1)).filter (fun (k : ℕ) => decide (cs * nb < k * mc)) = [] := by
        rw [List.filter_eq_nil_iff]
        intro k hk
        rw [List.mem_range] at hk
        have h1 : k * mc ≤ nb * mc := Nat.mul_le_mul_right mc (by omega)
        have h2 : nb * mc ≤ cs * nb := by
          calc nb * mc ≤ nb * cs := Nat.mul_le_mul_left nb hle
          _ = cs * nb := Nat.mul_comm nb cs
        simp only [decide_eq_true_eq]
        omega
      rw [hfe]
    refine ⟨hnone, ?_⟩
    intro i
    unfold recordAvalanche
    rw [hnone]
  · intro hlt
    rw [binIndex_eq_binIndexN mc nb cs hnb]
    cases hf : (List.range (nb + 1)).filter (fun (k : ℕ) => decide (cs * nb < k * mc)) with
    | nil =>
      exfalso
      have hmem : nb ∈ (List.range (nb + 1)).filter (fun (k : ℕ) => decide (cs * nb < k * mc)) := by
        rw [List.mem_filter]
        refine ⟨List.mem_range.mpr (by omega), ?_⟩
        simp only [decide_eq_true_eq]
        calc cs * nb < mc * nb := (Nat.mul_lt_mul_right hnb).mpr hlt
        _ = nb * mc := Nat.mul_comm mc nb
      rw [hf] at hmem
      cases hmem
    | cons k0 rest =>
      obtain ⟨hpk, hmin⟩ := filter_range_head (nb + 1) _ k0 rest hf
      have hk0nb : k0 ≤ nb := by
        have : k0 ∈ (List.range (nb + 1)).filter (fun (k : ℕ) => decide (cs * nb < k * mc)) := by
          rw [hf]
          exact List.mem_cons_self k0 rest
        rw [List.mem_filter, List.mem_range] at this
        omega
      have hk01 : 1 ≤ k0 := by
        by_contra hc
        have h0 : k0 = 0 := by omega
        rw [h0] at hpk
        simp only [decide_eq_true_eq] at hpk
        omega
      refine ⟨k0 - 1, ?_, by omega, ?_, ?_, ?_⟩
      · unfold binIndexN
        rw [hf]
      · -- lower cutoff of the bin is at most cs
        have hnp := hmin (k0 - 1) (by omega)
        simp only [decide_eq_false_iff_not] at hnp
        rw [div_le_iff₀ (by exact_mod_cast hnb)]
        have hle2 : (k0 - 1) * mc ≤ cs * nb := Nat.not_lt.mp hnp
        exact_mod_cast hle2
      · -- cs is strictly below the upper cutoff of the bin
        simp only [decide_eq_true_eq] at hpk
        rw [lt_div_iff₀ (by exact_mod_cast hnb)]
        have hcast : ((k0 - 1 : ℕ) : ℚ) + 1 = (k0 : ℚ) := by
          push_cast [Nat.cast_sub hk01]
          ring
        rw [hcast]
        exact_mod_cast hpk
      · intro i
        unfold recordAvalanche
        rw [binIndex_eq_binIndexN mc nb cs hnb]
        unfold binIndexN
        rw [hf]
  · rw [binIndex_eq_binIndexN 10 5 9 (by norm_num)]
    decide
  · rw [binIndex_eq_binIndexN 10 5 10 (by norm_num)]
    decide
  · rw [binIndex_eq_binIndexN 10 5 15 (by norm_num)]
    decide

/-- C5 witness. -/
theorem histogram_binning_policy_witness :
    ((0 : ℕ) < 10 ∧ (0 : ℕ) < 5) ∧
    ((10 ≤ 9 → binIndex 10 5 9 = none ∧
        ∀ i, recordAvalanche 10 5 (fun _ => 0) 9 i = (fun _ => (0 : ℕ)) i) ∧
      (9 < 10 → ∃ b, binIndex 10 5 9 = some b ∧ b < 5 ∧
        (b : ℚ) * (10 : ℚ) / (5 : ℚ) ≤ ((9 : ℕ) : ℚ) ∧
        ((9 : ℕ) : ℚ) < ((b : ℚ) + 1) * (10 : ℚ) / (5 : ℚ) ∧
        (∀ i, recordAvalanche 10 5 (fun _ => 0) 9 i =
          if i = b then (fun _ => (0 : ℕ)) i + 1 else (fun _ => (0 : ℕ)) i)) ∧
      binIndex 10 5 9 = some 4 ∧ binIndex 10 5 10 = none ∧ binIndex 10 5 15 = none) := by
  have h := histogram_binning_policy 10 5 9 (fun _ => 0) (by norm_num) (by norm_num)
  refine ⟨⟨by norm_num, by norm_num⟩, ?_⟩
  convert h using 4

/-! ### The average series and the skipped toppled-count reset -/

lemma c9_iteration_eq : iteration 3 10 5 (initSim 3 zeroG) (1, 1) = some c9res := by
  have hb : binIndex 10 5 0 = some 0 := by
    rw [binIndex_eq_binIndexN 10 5 0 (by norm_num)]
    decide
  have hdrop : drop 3 (initSim 3 zeroG).grid (initSim 3 zeroG).grid_iter 1 1 =
      some (⟨deposit zeroG 1 1, zeroG, 0⟩ : DropState) := rfl
  unfold iteration
  rw [hdrop, Option.map_some']
  simp only [hb]
  rfl

/-- C9.  The running average series gains exactly one entry per drop,
always equal to the mean height of the post-drop grid, on top of the
single baseline entry recorded before any drop; in the concrete no-
topple scenario on the all-zero 3 by 3 grid the recorded post-drop
average is one ninth. -/
theorem average_series_spec (n mc nb : ℕ) (st : SimState) (pick : ℕ × ℕ) (st' : SimState)
    (h : iteration n mc nb st pick = some st') :
    st'.avg = st.avg ++ [avgGrid n st'.grid] ∧
    (∀ g0 : ℕ → ℕ → ℕ, (initSim n g0).avg = [avgGrid n g0]) ∧
    (iteration 3 10 5 (initSim 3 zeroG) (1, 1) = some c9res ∧
      c9res.avg = [0, 1 / 9]) := by
  refine ⟨?_, fun _ => rfl, c9_iteration_eq, ?_⟩
  · obtain ⟨d, hd, hst'⟩ := Option.map_eq_some'.mp h
    subst hst'
    rfl
  · have h0 : gridSum 3 zeroG = 0 := by decide
    have h1 : gridSum 3 (deposit zeroG 1 1) = 1 := by decide
    show [avgGrid 3 zeroG, avgGrid 3 (deposit zeroG 1 1)] = [0, 1 / 9]
    simp only [avgGrid, h0, h1]
    norm_num

/-- C9 witness. -/
theorem average_series_spec_witness :
    (iteration 3 10 5 (initSim 3 zeroG) (1, 1) = some c9res) ∧
    (c9res.avg = (initSim 3 zeroG).avg ++ [avgGrid 3 c9res.grid] ∧
      (∀ g0 : ℕ → ℕ → ℕ, (initSim 3 g0).avg = [avgGrid 3 g0]) ∧
      (iteration 3 10 5 (initSim 3 zeroG) (1, 1) = some c9res ∧
        c9res.avg = [0, 1 / 9])) :=
  ⟨c9_iteration_eq,
    average_series_spec 3 10 5 (initSim 3 zeroG) (1, 1) c9res c9_iteration_eq⟩

/-- C4 evaluation at the failing input.  On a one-cell grid holding
three grains with max cascade one and one bin, the drop at (0,0) has
avalanche counter two, which is at least the max cascade, so the bin
lookup finds no cutoff above it and the except branch skips the rest of
the loop body including the toppled-count reset: the state observed at
the moment of the next deposit still carries toppled count two at
(0,0) instead of the all-zero grid the claim requires. -/
theorem grid_iter_not_reset_after_oversized_cascade :
    (drop 1 c4g0 zeroG 0 0).map DropState.cs = some 2 ∧
    binIndex 1 1 2 = none ∧
    ((iteration 1 1 1 (initSim 1 c4g0) (0, 0)).map fun st => st.grid_iter 0 0) = some 2 := by
  have hb : binIndex 1 1 2 = none := by
    rw [binIndex_eq_binIndexN 1 1 2 (by norm_num)]
    decide
  refine ⟨by decide, hb, ?_⟩
  have hdrop : drop 1 (initSim 1 c4g0).grid (initSim 1 c4g0).grid_iter 0 0 = some c4d := rfl
  have hcs : c4d.cs = 2 := by decide
  unfold iteration
  rw [hdrop, Option.map_some', Option.map_some']
  simp only [hcs, hb]
  have : c4d.grid_iter 0 0 = 2 := by decide
  simp only [this]
